import Mathlib

/-!
# Verification of the `dex` release-asset resolver and archive extractor

Shallow embedding of the decision logic of `src/platform.rs`, `src/extract.rs`
and `src/github.rs`.  Rust strings are modelled as Lean `String`; the handful
of `str` primitives used by the code (`to_lowercase`, `ends_with`, `contains`,
`strip_prefix`, `strip_suffix`, `split('/')`, `trim_end_matches('/')`) are
given explicit executable models over the character list `String.data`.
`to_lowercase` is modelled by per-character ASCII lowering, which agrees with
Rust on the ASCII identifiers the program manipulates.
-/

/-! ## String primitives -/

/-- Model of Rust `str::to_lowercase` (per-character lowering). -/
def strToLower (s : String) : String :=
  ⟨s.data.map Char.toLower⟩

/-- Model of Rust `str::ends_with`. -/
def strEndsWith (s suffix : String) : Bool :=
  suffix.data.isSuffixOf s.data

/-- Model of Rust `str::contains` with a string pattern (substring test). -/
def strContains (s sub : String) : Bool :=
  decide (sub.data <:+: s.data)

/-- Model of Rust `str::strip_prefix`: remove the leading occurrence, if any. -/
def strStripStart (s p : String) : Option String :=
  if p.data.isPrefixOf s.data then some ⟨s.data.drop p.data.length⟩ else none

/-- Model of Rust `str::strip_suffix`: remove the trailing occurrence, if any. -/
def strStripEnd (s p : String) : Option String :=
  if p.data.isSuffixOf s.data then some ⟨s.data.take (s.data.length - p.data.length)⟩
  else none

/-! ## `src/platform.rs` -/

/-- A downloadable asset with a name and URL (`platform.rs:3`). -/
structure Asset where
  name : String
  url : String
deriving DecidableEq

/-- Extensions that indicate non-downloadable files (`platform.rs:28`). -/
def SKIP_EXTENSIONS : List String :=
  [".sha256", ".sha512", ".sig", ".asc", ".sbom", ".json", ".txt", ".md"]

/-- Words in the filename that indicate source archives (`platform.rs:33`). -/
def SKIP_KEYWORDS : List String :=
  ["source", "src"]

/-- Platform alias groups: (canonical, aliases) (`platform.rs:36`). -/
def PLATFORM_ALIASES : List (String × List String) :=
  [("linux", ["linux"]),
   ("macos", ["macos", "darwin", "osx", "apple"]),
   ("windows", ["windows", "win64", "win32", "win", "msvc", "pc-windows"])]

/-- Architecture alias groups: (canonical, aliases) (`platform.rs:46`). -/
def ARCH_ALIASES : List (String × List String) :=
  [("x86_64", ["x86_64", "x86-64", "amd64", "x64"]),
   ("arm64", ["arm64", "aarch64"])]

/-- The group-lookup predicate of `matches_alias_group` (`platform.rs:119`):
the canonical name or one of the aliases equals the lowercased value. -/
def aliasGroupFor (valueLower : String) (g : String × List String) : Bool :=
  g.1 == valueLower || g.2.any (fun a => a == valueLower)

/-- `matches_alias_group` (`platform.rs:114-129`): find the alias group
containing the value; if found, test whether the filename contains any alias
of that group; otherwise fall back to a direct substring test. -/
def matchesAliasGroup (nameLower value : String)
    (groups : List (String × List String)) : Bool :=
  let valueLower := strToLower value
  match groups.find? (aliasGroupFor valueLower) with
  | some g => g.2.any (fun al => strContains nameLower al)
  | none => strContains nameLower valueLower

/-- `platform_aliases_contain` (`platform.rs:132-140`): does the platform
value belong to the group whose canonical name is `target`? -/
def platformAliasesContain (platform target : String) : Bool :=
  let platformLower := strToLower platform
  match PLATFORM_ALIASES.find? (fun g => g.1 == target) with
  | some g => g.1 == platformLower || g.2.any (fun a => a == platformLower)
  | none => false

/-- `is_extractable_ext` (`platform.rs:143-149`). -/
def isExtractableExt (name : String) : Bool :=
  [".tar.gz", ".tgz", ".tar.bz2", ".tbz2", ".tar.xz", ".txz", ".tar.zst",
   ".tzst", ".zip", ".gz", ".bz2", ".xz", ".zst"].any
    (fun ext => strEndsWith name ext)

/-- The pre-filter of `select_best_asset` (`platform.rs:62-69`): skip
checksum/signature/text files and source archives. -/
def skipAsset (nameLower : String) : Bool :=
  SKIP_EXTENSIONS.any (fun ext => strEndsWith nameLower ext)
    || SKIP_KEYWORDS.any (fun kw => strContains nameLower kw)

/-- The format bonus of `select_best_asset` (`platform.rs:90-102`). -/
def formatBonus (nameLower platform : String) : Int :=
  if platformAliasesContain platform "windows" then
    if strEndsWith nameLower ".zip" then 2
    else if isExtractableExt nameLower then 1
    else 0
  else if strEndsWith nameLower ".tar.gz" || strEndsWith nameLower ".tgz" then 2
  else if isExtractableExt nameLower then 1
  else 0

/-- One iteration of the `for asset in assets` loop of `select_best_asset`
(`platform.rs:58-108`), acting on the incumbent `best`. -/
def selectStep (platform arch : String) (best : Option (Asset × Int))
    (asset : Asset) : Option (Asset × Int) :=
  let nameLower := strToLower asset.name
  if skipAsset nameLower then best
  else
    let platformMatch := matchesAliasGroup nameLower platform PLATFORM_ALIASES
    let archMatch := matchesAliasGroup nameLower arch ARCH_ALIASES
    if !platformMatch || !archMatch then best
    else
      let score : Int :=
        (if platformMatch then 10 else 0) + (if archMatch then 5 else 0)
          + formatBonus nameLower platform
      match best with
      | some (_, bestScore) => if score ≤ bestScore then best else some (asset, score)
      | none => some (asset, score)

/-- `select_best_asset` (`platform.rs:55-111`). -/
def selectBestAsset (assets : List Asset) (platform arch : String) :
    Option Asset :=
  (assets.foldl (selectStep platform arch) none).map Prod.fst

/-- An asset survives the pre-filter and matches both platform and arch:
exactly the assets that can become the incumbent (`platform.rs:85-88`). -/
def isCandidate (asset : Asset) (platform arch : String) : Bool :=
  let nameLower := strToLower asset.name
  !skipAsset nameLower
    && matchesAliasGroup nameLower platform PLATFORM_ALIASES
    && matchesAliasGroup nameLower arch ARCH_ALIASES

/-- The score a candidate asset receives (`platform.rs:71-102`): +10 for the
platform match, +5 for the arch match, plus the format bonus. -/
def scoreAsset (asset : Asset) (platform arch : String) : Int :=
  let nameLower := strToLower asset.name
  (if matchesAliasGroup nameLower platform PLATFORM_ALIASES then 10 else 0)
    + (if matchesAliasGroup nameLower arch ARCH_ALIASES then 5 else 0)
    + formatBonus nameLower platform




/-! ## `src/extract.rs` -/

/-- The nine archive kinds (`extract.rs:10-20`). -/
inductive ArchiveType where
  | TarGz
  | TarBz2
  | TarXz
  | TarZst
  | Zip
  | Gz
  | Bz2
  | Xz
  | Zst
deriving DecidableEq

/-- `detect_archive_type` (`extract.rs:30-62`): lowercase the path, then test
compound suffixes before simple ones. -/
def detectArchiveType (path : String) : Option ArchiveType :=
  let pathStr := strToLower path
  if strEndsWith pathStr ".tar.gz" || strEndsWith pathStr ".tgz" then some .TarGz
  else if strEndsWith pathStr ".tar.bz2" || strEndsWith pathStr ".tbz2" then some .TarBz2
  else if strEndsWith pathStr ".tar.xz" || strEndsWith pathStr ".txz" then some .TarXz
  else if strEndsWith pathStr ".tar.zst" || strEndsWith pathStr ".tzst" then some .TarZst
  else if strEndsWith pathStr ".zip" then some .Zip
  else if strEndsWith pathStr ".gz" then some .Gz
  else if strEndsWith pathStr ".bz2" then some .Bz2
  else if strEndsWith pathStr ".xz" then some .Xz
  else if strEndsWith pathStr ".zst" then some .Zst
  else none

/-- `is_extractable` (`extract.rs:23-26`). -/
def isExtractable (path : String) : Bool :=
  (detectArchiveType path).isSome

/-- A filesystem location, as the list of path components below the
filesystem root.  `output_dir.join(rel)` is modelled by list append. -/
abbrev FsPath := List String

/-- A zip entry as stored in the archive: whether its stored name is an
absolute path, its path components, and whether it is a directory entry. -/
structure ZipEntry where
  absolute : Bool
  components : List String
  isDir : Bool
deriving DecidableEq

/-- Modelled from the spec: `enclosed_name` of the zip crate (an external
dependency, not part of this repository's sources).  Per the spec, name
resolution fails — and the entry must be skipped — when the stored path
would escape the output directory: absolute paths, `..` traversal, or any
other enclosed-name failure (here: an empty name or empty components).
Otherwise the stored relative path is returned unchanged. -/
def enclosedName (e : ZipEntry) : Option (List String) :=
  if e.absolute || e.components.isEmpty
      || e.components.any (fun c => c == ".." || c == "") then
    none
  else
    some e.components

/-- An observable filesystem write performed during extraction. -/
inductive FsEvent where
  | createDirAll (p : FsPath)
  | createFile (p : FsPath)
deriving DecidableEq

/-- The location an event writes to. -/
def FsEvent.path : FsEvent → FsPath
  | createDirAll p => p
  | createFile p => p

/-- The writes of one iteration of the entry loop of `extract_zip`
(`extract.rs:144-172`): a failed `enclosed_name` skips the entry
(`continue`), a directory entry is created with `create_dir_all`, a file
entry first gets its parent directory (if any) created and is then written. -/
def zipEntryEvents (outputDir : FsPath) (e : ZipEntry) : List FsEvent :=
  match enclosedName e with
  | none => []
  | some entryPath =>
    let fullPath := outputDir ++ entryPath
    if e.isDir then [.createDirAll fullPath]
    else
      match fullPath with
      | [] => [.createFile fullPath]
      | _ :: _ => [.createDirAll fullPath.dropLast, .createFile fullPath]

/-- `extract_zip` (`extract.rs:139-175`): the writes of all entries in
order, and the overall result (successful whenever the file I/O itself
succeeds, which the model assumes). -/
def extractZip (entries : List ZipEntry) (outputDir : FsPath) :
    List FsEvent × Except String Unit :=
  ((entries.map (zipEntryEvents outputDir)).flatten, Except.ok ())

/-- The writes of `tar::Archive::unpack` for the tar-based kinds
(`extract.rs:98-136`): entry contents are abstracted to their stored
relative paths, which `unpack` materializes under the output directory. -/
def extractTar (paths : List (List String)) (outputDir : FsPath) :
    List FsEvent × Except String Unit :=
  (paths.map (fun p => FsEvent.createFile (outputDir ++ p)), Except.ok ())

/-- Splitting a character list at every slash, keeping empty pieces: the
recursive worker returns the first piece and the remaining pieces. -/
def splitOnSlashAux : List Char → List Char × List (List Char)
  | [] => ([], [])
  | c :: rest =>
    let (s, ss) := splitOnSlashAux rest
    if c = '/' then ([], s :: ss) else (c :: s, ss)

/-- Model of Rust `str::split('/')` (always at least one piece). -/
def splitOnSlash (l : List Char) : List (List Char) :=
  (splitOnSlashAux l).1 :: (splitOnSlashAux l).2

/-- Model of Rust `str::trim_end_matches('/')`: drop every trailing slash. -/
def trimEndSlashes (l : List Char) : List Char :=
  (l.reverse.dropWhile (fun c => c == '/')).reverse

/-- The last `Normal` component of a path, as a string: a model of Rust
`Path::file_name().and_then(|n| n.to_str())` (`extract.rs:186-188`); in the
model every string is valid UTF-8, so `to_str` always succeeds.  Empty and
`.` pieces are not components of a Rust path, and a path whose final
component is `..` has no file name. -/
def fileNameOf (path : String) : Option String :=
  match ((splitOnSlash path.data).filter
      (fun s => !(s.isEmpty || s == ['.']))).getLast? with
  | none => none
  | some s => if s = "..".data then none else some ⟨s⟩

/-- The output file name chosen by `extract_single_compressed`
(`extract.rs:186-191`): strip the `.{format}` suffix from the input's file
name, falling back to the literal name `decompressed`. -/
def singleStemOf (path : String) (format : String) : String :=
  match (fileNameOf path).bind (fun n => strStripEnd n ("." ++ format)) with
  | some stem => stem
  | none => "decompressed"

/-- `extract_single_compressed` (`extract.rs:179-227`): decompress the single
stream into `output_dir.join(stem)`. -/
def extractSingleCompressed (path : String) (outputDir : FsPath)
    (format : String) : List FsEvent × Except String Unit :=
  ([FsEvent.createFile (outputDir ++ [singleStemOf path format])], Except.ok ())

/-- The contents of the downloaded file, abstracted to what each extractor
reads from it: tar entry paths, zip entries, or a single compressed stream. -/
inductive FileContent where
  | tarball (paths : List (List String))
  | zipArchive (entries : List ZipEntry)
  | stream
deriving DecidableEq

/-- The `match archive_type` dispatch of `extract_file` (`extract.rs:79-89`).
A file whose bytes do not actually have the detected format makes the
decoder fail, which the model reports as an error. -/
def dispatchExtract (path : String) (t : ArchiveType) (content : FileContent)
    (outputDir : FsPath) : List FsEvent × Except String Unit :=
  match t, content with
  | .TarGz, .tarball ps => extractTar ps outputDir
  | .TarBz2, .tarball ps => extractTar ps outputDir
  | .TarXz, .tarball ps => extractTar ps outputDir
  | .TarZst, .tarball ps => extractTar ps outputDir
  | .Zip, .zipArchive es => extractZip es outputDir
  | .Gz, .stream => extractSingleCompressed path outputDir "gz"
  | .Bz2, .stream => extractSingleCompressed path outputDir "bz2"
  | .Xz, .stream => extractSingleCompressed path outputDir "xz"
  | .Zst, .stream => extractSingleCompressed path outputDir "zst"
  | _, _ => ([], Except.error "invalid archive data")

/-- `extract_file` (`extract.rs:68-90`): create the output directory first
(`fs::create_dir_all(output_dir)?`, line 72), only then detect the archive
type (line 75) and dispatch on it. -/
def extractFile (path : String) (content : FileContent) (outputDir : FsPath) :
    List FsEvent × Except String Unit :=
  let setup := [FsEvent.createDirAll outputDir]
  match detectArchiveType path with
  | none => (setup, Except.error "Unknown archive format")
  | some t =>
    let (evs, r) := dispatchExtract path t content outputDir
    (setup ++ evs, r)

/-! ## `src/github.rs` -/

/-- The `match segments.as_slice()` of `parse_github_url`
(`github.rs:38-48`). -/
def parseSegments (segs : List (List Char)) :
    Option (String × String × Option String) :=
  match segs with
  | [owner, repo] => some (⟨owner⟩, ⟨repo⟩, none)
  | [owner, repo, s] =>
    if s = "releases".data then some (⟨owner⟩, ⟨repo⟩, none) else none
  | [owner, repo, s, t] =>
    if s = "releases".data ∧ t = "latest".data then some (⟨owner⟩, ⟨repo⟩, none)
    else none
  | [owner, repo, s, t, tag] =>
    if s = "releases".data ∧ t = "tag".data then some (⟨owner⟩, ⟨repo⟩, some ⟨tag⟩)
    else none
  | _ => none

/-- `parse_github_url` (`github.rs:30-49`): strip the scheme-and-host
prefix, drop the trailing slashes, split the rest on `/` and match the
segment shapes. -/
def parseGithubUrl (url : String) :
    Option (String × String × Option String) :=
  match strStripStart url "https://github.com/"
      <|> strStripStart url "http://github.com/" with
  | none => none
  | some path => parseSegments (splitOnSlash (trimEndSlashes path.data))

/-- `is_github_release_url` (`github.rs:19-21`). -/
def isGithubReleaseUrl (url : String) : Bool :=
  (parseGithubUrl url).isSome

/-- A parser that follows the claim's words instead of the code: the segment
shapes are matched after stripping at most ONE trailing slash (the code's
`trim_end_matches('/')` strips them all).  Used to compare the claim against
the code. -/
def parseGithubUrlOneSlash (url : String) :
    Option (String × String × Option String) :=
  match strStripStart url "https://github.com/"
      <|> strStripStart url "http://github.com/" with
  | none => none
  | some path =>
    let p := path.data
    let p1 := if p.getLast? = some '/' then p.dropLast else p
    parseSegments (splitOnSlash p1)

/-! ## Auxiliary definitions used by the verification -/

/-- Two identifiers (canonical name or alias) belong to one alias group. -/
def inSameAliasGroup (x y : String)
    (groups : List (String × List String)) : Prop :=
  ∃ g ∈ groups, x ∈ (g.1 :: g.2) ∧ y ∈ (g.1 :: g.2)

/-- Joining path segments with slashes (the inverse of `splitOnSlash`). -/
def joinSlash : List (List Char) → List Char
  | [] => []
  | [s] => s
  | s :: rest => s ++ '/' :: joinSlash rest

/-- The segment lists allowed by the URL grammar for a parse result. -/
def releaseSegments (o r : String) (t : Option String) :
    List (List (List Char)) :=
  match t with
  | none => [[o.data, r.data],
             [o.data, r.data, "releases".data],
             [o.data, r.data, "releases".data, "latest".data]]
  | some tag => [[o.data, r.data, "releases".data, "tag".data, tag.data]]

/-- The URL grammar of the spec, over raw strings: a scheme, the
`github.com` host, slash-separated release segments (none of which contains
a slash, the last nonempty), and any number of trailing slashes. -/
def githubUrlGrammar (url o r : String) (t : Option String) : Prop :=
  ∃ scheme ∈ (["https://", "http://"] : List String),
    ∃ segs ∈ releaseSegments o r t, ∃ k : ℕ,
      url.data = scheme.data ++ "github.com/".data ++ joinSlash segs
          ++ List.replicate k '/'
      ∧ (∀ s ∈ segs, '/' ∉ s)
      ∧ segs.getLast? ≠ some []







/-! ## Generic lemmas about the string primitives -/

lemma strEndsWith_iff {s p : String} :
    strEndsWith s p = true ↔ p.data <:+ s.data := by
  simp [strEndsWith, List.isSuffixOf_iff_suffix]

/-- Two suffix patterns neither of which is a suffix of the other cannot both
match the same string. -/
lemma strEndsWith_excl {s a b : String} (h : strEndsWith s a = true)
    (hab : ¬(a.data <:+ b.data)) (hba : ¬(b.data <:+ a.data)) :
    strEndsWith s b = false := by
  cases hsb : strEndsWith s b with
  | false => rfl
  | true =>
    rw [strEndsWith_iff] at h hsb
    rcases List.suffix_or_suffix_of_suffix h hsb with h' | h'
    · exact absurd h' hab
    · exact absurd h' hba

lemma strStripEnd_of_endsWith {n p : String} (h : strEndsWith n p = true) :
    ∃ stem : String, strStripEnd n p = some stem ∧ stem.data ++ p.data = n.data := by
  rw [strEndsWith_iff] at h
  obtain ⟨l, hl⟩ := h
  refine ⟨⟨l⟩, ?_, ?_⟩
  · have hsuf : p.data.isSuffixOf n.data = true := by
      rw [List.isSuffixOf_iff_suffix]; exact ⟨l, hl⟩
    simp only [strStripEnd, hsuf, if_true]
    have hlen : n.data.length - p.data.length = l.length := by
      rw [← hl, List.length_append]; omega
    rw [hlen, ← hl, List.take_left]
  · exact hl

/-! ## C7: archive type detection -/

/-- **C7**.  `detect_archive_type` lowercases the path and tests compound
suffixes before simple ones: every filename ending in a recognized compound
suffix is classified as the compound kind, never the simple kind it also
ends with; a path ending in none of the recognized suffixes is not
recognized, and `is_extractable` holds exactly when detection succeeds. -/
theorem detect_compound_before_simple :
    ∀ path : String,
      ((strEndsWith (strToLower path) ".tar.gz" = true
          ∨ strEndsWith (strToLower path) ".tgz" = true) →
        detectArchiveType path = some .TarGz) ∧
      ((strEndsWith (strToLower path) ".tar.bz2" = true
          ∨ strEndsWith (strToLower path) ".tbz2" = true) →
        detectArchiveType path = some .TarBz2) ∧
      ((strEndsWith (strToLower path) ".tar.xz" = true
          ∨ strEndsWith (strToLower path) ".txz" = true) →
        detectArchiveType path = some .TarXz) ∧
      ((strEndsWith (strToLower path) ".tar.zst" = true
          ∨ strEndsWith (strToLower path) ".tzst" = true) →
        detectArchiveType path = some .TarZst) ∧
      ((∀ ext ∈ [".tar.gz", ".tgz", ".tar.bz2", ".tbz2", ".tar.xz", ".txz",
          ".tar.zst", ".tzst", ".zip", ".gz", ".bz2", ".xz", ".zst"],
          strEndsWith (strToLower path) ext = false) →
        detectArchiveType path = none) ∧
      isExtractable path = (detectArchiveType path).isSome := by
  intro path
  refine ⟨?_, ?_, ?_, ?_, ?_, rfl⟩
  · rintro (h | h) <;> simp [detectArchiveType, h]
  · rintro (h | h) <;>
    · have h1 : strEndsWith (strToLower path) ".tar.gz" = false :=
        strEndsWith_excl h (by decide) (by decide)
      have h2 : strEndsWith (strToLower path) ".tgz" = false :=
        strEndsWith_excl h (by decide) (by decide)
      simp [detectArchiveType, h, h1, h2]
  · rintro (h | h) <;>
    · have h1 : strEndsWith (strToLower path) ".tar.gz" = false :=
        strEndsWith_excl h (by decide) (by decide)
      have h2 : strEndsWith (strToLower path) ".tgz" = false :=
        strEndsWith_excl h (by decide) (by decide)
      have h3 : strEndsWith (strToLower path) ".tar.bz2" = false :=
        strEndsWith_excl h (by decide) (by decide)
      have h4 : strEndsWith (strToLower path) ".tbz2" = false :=
        strEndsWith_excl h (by decide) (by decide)
      simp [detectArchiveType, h, h1, h2, h3, h4]
  · rintro (h | h) <;>
    · have h1 : strEndsWith (strToLower path) ".tar.gz" = false :=
        strEndsWith_excl h (by decide) (by decide)
      have h2 : strEndsWith (strToLower path) ".tgz" = false :=
        strEndsWith_excl h (by decide) (by decide)
      have h3 : strEndsWith (strToLower path) ".tar.bz2" = false :=
        strEndsWith_excl h (by decide) (by decide)
      have h4 : strEndsWith (strToLower path) ".tbz2" = false :=
        strEndsWith_excl h (by decide) (by decide)
      have h5 : strEndsWith (strToLower path) ".tar.xz" = false :=
        strEndsWith_excl h (by decide) (by decide)
      have h6 : strEndsWith (strToLower path) ".txz" = false :=
        strEndsWith_excl h (by decide) (by decide)
      simp [detectArchiveType, h, h1, h2, h3, h4, h5, h6]
  · intro h
    have h1 := h ".tar.gz" (by simp)
    have h2 := h ".tgz" (by simp)
    have h3 := h ".tar.bz2" (by simp)
    have h4 := h ".tbz2" (by simp)
    have h5 := h ".tar.xz" (by simp)
    have h6 := h ".txz" (by simp)
    have h7 := h ".tar.zst" (by simp)
    have h8 := h ".tzst" (by simp)
    have h9 := h ".zip" (by simp)
    have h10 := h ".gz" (by simp)
    have h11 := h ".bz2" (by simp)
    have h12 := h ".xz" (by simp)
    have h13 := h ".zst" (by simp)
    simp [detectArchiveType, h1, h2, h3, h4, h5, h6, h7, h8, h9, h10, h11,
      h12, h13]

/-- Witness for C7: a `.tar.gz` file is tar+gzip, never plain gzip, and an
unrecognized extension detects as `none`. -/
theorem detect_compound_before_simple_witness :
    detectArchiveType "x.tar.gz" = some .TarGz
      ∧ detectArchiveType "x.pdf" = none := by
  constructor
  · exact (detect_compound_before_simple "x.tar.gz").1 (Or.inl (by decide))
  · exact (detect_compound_before_simple "x.pdf").2.2.2.2.1 (by decide)

/-! ## C10: output directory is created before type detection -/

/-- **C10**.  `extract_file` creates the output directory before detecting
the archive type: on an unrecognized extension it fails with the
Unknown-archive-format error, but the recursive directory creation has
already happened — the only event in the trace is exactly that creation. -/
theorem extract_file_mkdir_before_detect :
    ∀ (path : String) (content : FileContent) (outputDir : FsPath),
      detectArchiveType path = none →
      (extractFile path content outputDir).2
          = Except.error "Unknown archive format" ∧
        (extractFile path content outputDir).1
          = [FsEvent.createDirAll outputDir] := by
  intro path content outputDir h
  simp [extractFile, h]

/-- Witness for C10 at `file.pdf`. -/
theorem extract_file_mkdir_before_detect_witness :
    (extractFile "file.pdf" .stream ["out"]).2
        = Except.error "Unknown archive format" ∧
      (extractFile "file.pdf" .stream ["out"]).1
        = [FsEvent.createDirAll ["out"]] :=
  extract_file_mkdir_before_detect "file.pdf" .stream ["out"] (by decide)

/-! ## C9: output name of single-stream decompression -/

/-- **C9**.  Plain single-stream extraction derives the output filename by
stripping the matching compression suffix from the input filename
(`data.csv.gz` becomes `data.csv`); when the strip attempt yields nothing,
the literal name `decompressed` is used instead. -/
theorem single_compressed_output_name :
    ∀ (path format : String) (outputDir : FsPath),
      ((∃ n, fileNameOf path = some n
          ∧ strEndsWith n ("." ++ format) = true) →
        ∃ n stem, fileNameOf path = some n
          ∧ singleStemOf path format = stem
          ∧ stem.data ++ ("." ++ format).data = n.data) ∧
      ((fileNameOf path).bind (fun n => strStripEnd n ("." ++ format)) = none →
        singleStemOf path format = "decompressed") ∧
      extractSingleCompressed "data.csv.gz" outputDir "gz"
        = ([FsEvent.createFile (outputDir ++ ["data.csv"])], Except.ok ()) := by
  intro path format outputDir
  refine ⟨?_, ?_, by rfl⟩
  · rintro ⟨n, hn, hend⟩
    obtain ⟨stem, hstrip, hdata⟩ := strStripEnd_of_endsWith hend
    refine ⟨n, stem, hn, ?_, hdata⟩
    simp [singleStemOf, hn, hstrip]
  · intro h
    simp [singleStemOf, h]

/-- Witness for C9: `data.csv.gz` strips to `data.csv`; a name without the
`.gz` suffix (here the uppercase `file.GZ`, since `strip_suffix` is
case-sensitive) falls back to `decompressed`. -/
theorem single_compressed_output_name_witness :
    (∃ n stem, fileNameOf "data.csv.gz" = some n
      ∧ singleStemOf "data.csv.gz" "gz" = stem
      ∧ stem.data ++ (("." ++ "gz") : String).data = n.data)
    ∧ singleStemOf "file.GZ" "gz" = "decompressed" := by
  constructor
  · exact (single_compressed_output_name "data.csv.gz" "gz" []).1
      ⟨"data.csv.gz", by decide, by decide⟩
  · exact (single_compressed_output_name "file.GZ" "gz" []).2.1 (by decide)

/-! ## Characterizing the selection fold -/

/-- `selectStep` in terms of `isCandidate` and `scoreAsset`: non-candidates
leave the incumbent unchanged; a candidate replaces it exactly when its
score is strictly greater. -/
lemma selectStep_eq (platform arch : String) (best : Option (Asset × Int))
    (a : Asset) :
    selectStep platform arch best a =
      if isCandidate a platform arch then
        match best with
        | some (b, bestScore) =>
          if scoreAsset a platform arch ≤ bestScore then some (b, bestScore)
          else some (a, scoreAsset a platform arch)
        | none => some (a, scoreAsset a platform arch)
      else best := by
  simp only [selectStep, isCandidate, scoreAsset]
  cases hs : skipAsset (strToLower a.name) <;>
    cases hp : matchesAliasGroup (strToLower a.name) platform PLATFORM_ALIASES <;>
      cases ha : matchesAliasGroup (strToLower a.name) arch ARCH_ALIASES <;>
        cases best with
        | none => simp [hs, hp, ha]
        | some p => obtain ⟨b, bs⟩ := p; simp [hs, hp, ha]

/-- The fold yields `none` exactly when it started from `none` and no asset
in the list is a candidate. -/
lemma selectFold_eq_none_iff (l : List Asset) (platform arch : String)
    (acc : Option (Asset × Int)) :
    l.foldl (selectStep platform arch) acc = none ↔
      acc = none ∧ ∀ a ∈ l, isCandidate a platform arch = false := by
  induction l generalizing acc with
  | nil => simp
  | cons x l ih =>
    rw [List.foldl_cons, ih]
    constructor
    · rintro ⟨hstep, hl⟩
      rw [selectStep_eq] at hstep
      cases hc : isCandidate x platform arch with
      | true =>
        rw [if_pos (by simp [hc])] at hstep
        cases acc with
        | none => simp at hstep
        | some p => obtain ⟨b, s⟩ := p; dsimp at hstep; split at hstep <;> simp at hstep
      | false =>
        rw [if_neg (by simp [hc])] at hstep
        refine ⟨hstep, ?_⟩
        intro a hmem
        rcases List.mem_cons.mp hmem with rfl | hmem
        · exact hc
        · exact hl a hmem
    · rintro ⟨rfl, hall⟩
      have hx : isCandidate x platform arch = false := hall x (by simp)
      rw [selectStep_eq, if_neg (by simp [hx])]
      exact ⟨rfl, fun a hmem => hall a (List.mem_cons_of_mem _ hmem)⟩

/-- Any pair produced by the fold is either the initial incumbent or a
candidate from the list paired with its score. -/
lemma selectFold_mem (l : List Asset) (platform arch : String)
    (acc : Option (Asset × Int)) (a : Asset) (s : Int)
    (h : l.foldl (selectStep platform arch) acc = some (a, s)) :
    acc = some (a, s) ∨
      (a ∈ l ∧ isCandidate a platform arch = true
        ∧ s = scoreAsset a platform arch) := by
  induction l generalizing acc with
  | nil => exact Or.inl h
  | cons x l ih =>
    rw [List.foldl_cons] at h
    rcases ih _ h with hstep | ⟨hmem, hc, hs⟩
    · rw [selectStep_eq] at hstep
      by_cases hc : isCandidate x platform arch = true
      · rw [if_pos hc] at hstep
        cases acc with
        | none =>
          simp only [Option.some.injEq, Prod.mk.injEq] at hstep
          obtain ⟨rfl, rfl⟩ := hstep
          exact Or.inr ⟨by simp, hc, rfl⟩
        | some p =>
          obtain ⟨b, bs⟩ := p
          dsimp at hstep
          split at hstep
          · exact Or.inl hstep
          · simp only [Option.some.injEq, Prod.mk.injEq] at hstep
            obtain ⟨rfl, rfl⟩ := hstep
            exact Or.inr ⟨by simp, hc, rfl⟩
      · rw [if_neg hc] at hstep
        exact Or.inl hstep
    · exact Or.inr ⟨List.mem_cons_of_mem _ hmem, hc, hs⟩

/-- Running the fold from an incumbent candidate `a₀`: the result is either
`a₀` itself, which then dominates everything in the list, or the first
strictly better candidate of the list. -/
lemma selectFold_from_incumbent (l : List Asset) (platform arch : String) :
    ∀ (a₀ a : Asset) (s : Int),
      l.foldl (selectStep platform arch)
          (some (a₀, scoreAsset a₀ platform arch)) = some (a, s) →
      (a = a₀ ∧ s = scoreAsset a₀ platform arch
        ∧ ∀ b ∈ l, isCandidate b platform arch = true →
            scoreAsset b platform arch ≤ s) ∨
      (∃ l₁ l₂, l = l₁ ++ a :: l₂
        ∧ isCandidate a platform arch = true
        ∧ s = scoreAsset a platform arch
        ∧ scoreAsset a₀ platform arch < s
        ∧ (∀ b ∈ l₁, isCandidate b platform arch = true →
            scoreAsset b platform arch < s)
        ∧ (∀ b ∈ l₂, isCandidate b platform arch = true →
            scoreAsset b platform arch ≤ s)) := by
  induction l with
  | nil =>
    intro a₀ a s h
    simp only [List.foldl_nil, Option.some.injEq, Prod.mk.injEq] at h
    obtain ⟨rfl, rfl⟩ := h
    exact Or.inl ⟨rfl, rfl, by simp⟩
  | cons y l ih =>
    intro a₀ a s h
    rw [List.foldl_cons, selectStep_eq] at h
    by_cases hy : isCandidate y platform arch = true
    · rw [if_pos hy] at h
      dsimp at h
      split at h
      all_goals rename_i hle
      · -- incumbent kept: score y ≤ score a₀
        rcases ih a₀ a s h with ⟨rfl, hs, hall⟩ | ⟨l₁, l₂, hl, hc, hs, hlt, h₁, h₂⟩
        · refine Or.inl ⟨rfl, hs, ?_⟩
          intro b hb hcb
          rcases List.mem_cons.mp hb with rfl | hb
          · exact le_trans hle (le_of_eq hs.symm)
          · exact hall b hb hcb
        · refine Or.inr ⟨y :: l₁, l₂, by simp [hl], hc, hs, hlt, ?_, h₂⟩
          intro b hb hcb
          rcases List.mem_cons.mp hb with rfl | hb
          · exact lt_of_le_of_lt hle hlt
          · exact h₁ b hb hcb
      · -- incumbent replaced by y: score a₀ < score y
        push_neg at hle
        rcases ih y a s h with ⟨rfl, hs, hall⟩ | ⟨l₁, l₂, hl, hc, hs, hlt, h₁, h₂⟩
        · exact Or.inr ⟨[], l, rfl, hy, hs, lt_of_lt_of_le hle (le_of_eq hs.symm),
            by simp, hall⟩
        · refine Or.inr ⟨y :: l₁, l₂, by simp [hl], hc, hs, lt_trans hle hlt, ?_, h₂⟩
          intro b hb hcb
          rcases List.mem_cons.mp hb with rfl | hb
          · exact hlt
          · exact h₁ b hb hcb
    · rw [if_neg hy] at h
      rcases ih a₀ a s h with ⟨rfl, hs, hall⟩ | ⟨l₁, l₂, hl, hc, hs, hlt, h₁, h₂⟩
      · refine Or.inl ⟨rfl, hs, ?_⟩
        intro b hb hcb
        rcases List.mem_cons.mp hb with rfl | hb
        · exact absurd hcb hy
        · exact hall b hb hcb
      · refine Or.inr ⟨y :: l₁, l₂, by simp [hl], hc, hs, hlt, ?_, h₂⟩
        intro b hb hcb
        rcases List.mem_cons.mp hb with rfl | hb
        · exact absurd hcb hy
        · exact h₁ b hb hcb

/-- Running the fold from `none`: a successful result is the first candidate
of the list achieving the maximal candidate score. -/
lemma selectFold_from_none (l : List Asset) (platform arch : String) :
    ∀ (a : Asset) (s : Int),
      l.foldl (selectStep platform arch) none = some (a, s) →
      ∃ l₁ l₂, l = l₁ ++ a :: l₂
        ∧ isCandidate a platform arch = true
        ∧ s = scoreAsset a platform arch
        ∧ (∀ b ∈ l₁, isCandidate b platform arch = true →
            scoreAsset b platform arch < s)
        ∧ (∀ b ∈ l₂, isCandidate b platform arch = true →
            scoreAsset b platform arch ≤ s) := by
  induction l with
  | nil => intro a s h; simp at h
  | cons y l ih =>
    intro a s h
    rw [List.foldl_cons, selectStep_eq] at h
    by_cases hy : isCandidate y platform arch = true
    · rw [if_pos hy] at h
      dsimp at h
      rcases selectFold_from_incumbent l platform arch y a s h with
        ⟨rfl, hs, hall⟩ | ⟨l₁, l₂, hl, hc, hs, hlt, h₁, h₂⟩
      · exact ⟨[], l, rfl, hy, hs, by simp, hall⟩
      · refine ⟨y :: l₁, l₂, by simp [hl], hc, hs, ?_, h₂⟩
        intro b hb hcb
        rcases List.mem_cons.mp hb with rfl | hb
        · exact hlt
        · exact h₁ b hb hcb
    · rw [if_neg hy] at h
      obtain ⟨l₁, l₂, hl, hc, hs, h₁, h₂⟩ := ih a s h
      refine ⟨y :: l₁, l₂, by simp [hl], hc, hs, ?_, h₂⟩
      intro b hb hcb
      rcases List.mem_cons.mp hb with rfl | hb
      · exact absurd hcb hy
      · exact h₁ b hb hcb

/-! ## C5: first candidate with maximal score wins -/

/-- **C5**.  The incumbent is replaced only by a strictly greater score, so
`select_best_asset` returns the first candidate, in input order, whose score
is maximal among all candidates: everything before it scores strictly less
and nothing scores more.  Being a function of the list, the selection is
deterministic for a fixed input order. -/
theorem select_best_first_of_max :
    ∀ (assets : List Asset) (platform arch : String) (a : Asset),
      selectBestAsset assets platform arch = some a →
      ∃ l₁ l₂, assets = l₁ ++ a :: l₂
        ∧ isCandidate a platform arch = true
        ∧ (∀ b ∈ l₁, isCandidate b platform arch = true →
            scoreAsset b platform arch < scoreAsset a platform arch)
        ∧ (∀ b ∈ assets, isCandidate b platform arch = true →
            scoreAsset b platform arch ≤ scoreAsset a platform arch) := by
  intro assets platform arch a h
  rw [selectBestAsset] at h
  rcases Option.map_eq_some'.mp h with ⟨⟨a', s⟩, hfold, ha⟩
  dsimp at ha
  subst ha
  obtain ⟨l₁, l₂, hl, hc, hs, h₁, h₂⟩ :=
    selectFold_from_none assets platform arch a' s hfold
  subst hs
  refine ⟨l₁, l₂, hl, hc, h₁, ?_⟩
  intro b hb hcb
  rw [hl] at hb
  rcases List.mem_append.mp hb with hb | hb
  · exact le_of_lt (h₁ b hb hcb)
  · rcases List.mem_cons.mp hb with rfl | hb
    · exact le_refl _
    · exact h₂ b hb hcb

/-- Witness for C5: two equally scored candidates, the first listed wins. -/
theorem select_best_first_of_max_witness :
    ∃ l₁ l₂,
      [(⟨"alpha-linux-x86_64.tar.gz", "u1"⟩ : Asset),
       ⟨"beta-linux-x86_64.tar.gz", "u2"⟩]
        = l₁ ++ (⟨"alpha-linux-x86_64.tar.gz", "u1"⟩ : Asset) :: l₂
      ∧ isCandidate ⟨"alpha-linux-x86_64.tar.gz", "u1"⟩ "linux" "x86_64" = true
      ∧ (∀ b ∈ l₁, isCandidate b "linux" "x86_64" = true →
          scoreAsset b "linux" "x86_64"
            < scoreAsset ⟨"alpha-linux-x86_64.tar.gz", "u1"⟩ "linux" "x86_64")
      ∧ (∀ b ∈ [(⟨"alpha-linux-x86_64.tar.gz", "u1"⟩ : Asset),
            ⟨"beta-linux-x86_64.tar.gz", "u2"⟩],
          isCandidate b "linux" "x86_64" = true →
          scoreAsset b "linux" "x86_64"
            ≤ scoreAsset ⟨"alpha-linux-x86_64.tar.gz", "u1"⟩ "linux" "x86_64") :=
  select_best_first_of_max
    [⟨"alpha-linux-x86_64.tar.gz", "u1"⟩, ⟨"beta-linux-x86_64.tar.gz", "u2"⟩]
    "linux" "x86_64" ⟨"alpha-linux-x86_64.tar.gz", "u1"⟩ (by rfl)

/-! ## C2: existence of a selection -/

/-- Counterexample to C2 as stated: an asset whose name matches both the
platform and the architecture but is denylisted (`.txt`), so the list
contains an asset satisfying both matches yet `select_best_asset` returns
`none`. -/
theorem select_best_none_despite_both_matches :
    matchesAliasGroup (strToLower "tool-linux-x86_64.txt") "linux"
        PLATFORM_ALIASES = true
      ∧ matchesAliasGroup (strToLower "tool-linux-x86_64.txt") "x86_64"
          ARCH_ALIASES = true
      ∧ selectBestAsset [⟨"tool-linux-x86_64.txt", "u"⟩] "linux" "x86_64"
          = none :=
  ⟨by rfl, by rfl, by rfl⟩

/-- **C2 (amended)**.  `select_best_asset` returns some asset exactly when
the list contains an asset that passes the denylist pre-filter and matches
both the platform and the architecture; otherwise it returns `none`. -/
theorem select_best_isSome_iff :
    ∀ (assets : List Asset) (platform arch : String),
      (selectBestAsset assets platform arch).isSome = true ↔
        ∃ x ∈ assets, skipAsset (strToLower x.name) = false
          ∧ matchesAliasGroup (strToLower x.name) platform PLATFORM_ALIASES = true
          ∧ matchesAliasGroup (strToLower x.name) arch ARCH_ALIASES = true := by
  intro assets platform arch
  have hnone : (assets.foldl (selectStep platform arch) none = none) ↔
      ∀ a ∈ assets, isCandidate a platform arch = false := by
    rw [selectFold_eq_none_iff]; simp
  have hcand : ∀ x : Asset, isCandidate x platform arch = true ↔
      (skipAsset (strToLower x.name) = false
        ∧ matchesAliasGroup (strToLower x.name) platform PLATFORM_ALIASES = true
        ∧ matchesAliasGroup (strToLower x.name) arch ARCH_ALIASES = true) := by
    intro x
    simp [isCandidate, Bool.and_eq_true, Bool.not_eq_true', and_assoc]
  rw [selectBestAsset, Option.isSome_map']
  rw [Option.isSome_iff_ne_none, Ne, hnone]
  push_neg
  constructor
  · rintro ⟨x, hx, hne⟩
    exact ⟨x, hx, (hcand x).mp (by
      cases h : isCandidate x platform arch
      · exact absurd h hne
      · rfl)⟩
  · rintro ⟨x, hx, hprops⟩
    exact ⟨x, hx, by rw [(hcand x).mpr hprops]; simp⟩

/-! ## C3: denylisted assets are never selected -/

/-- **C3**.  Whatever the platform and architecture, a selected asset's
lowercased name never ends with a denylisted suffix and never contains a
denylisted keyword. -/
theorem select_best_not_denylisted :
    ∀ (assets : List Asset) (platform arch : String) (x : Asset),
      selectBestAsset assets platform arch = some x →
      (∀ ext ∈ SKIP_EXTENSIONS, strEndsWith (strToLower x.name) ext = false)
        ∧ ∀ kw ∈ SKIP_KEYWORDS, strContains (strToLower x.name) kw = false := by
  intro assets platform arch x h
  rw [selectBestAsset] at h
  rcases Option.map_eq_some'.mp h with ⟨⟨a', s⟩, hfold, ha⟩
  dsimp at ha
  subst ha
  rcases selectFold_mem assets platform arch none a' s hfold with hacc | ⟨_, hc, _⟩
  · exact absurd hacc (by simp)
  · have hskip : skipAsset (strToLower a'.name) = false := by
      simp only [isCandidate, Bool.and_eq_true, Bool.not_eq_true'] at hc
      exact hc.1.1
    rw [skipAsset, Bool.or_eq_false_iff] at hskip
    obtain ⟨hext, hkw⟩ := hskip
    constructor
    · intro ext hmem
      rw [List.any_eq_false] at hext
      have := hext ext hmem
      cases h' : strEndsWith (strToLower a'.name) ext
      · rfl
      · exact absurd h' this
    · intro kw hmem
      rw [List.any_eq_false] at hkw
      have := hkw kw hmem
      cases h' : strContains (strToLower a'.name) kw
      · rfl
      · exact absurd h' this

/-- Witness for C3: a concrete release list containing checksum and source
assets; the selected asset is clean. -/
theorem select_best_not_denylisted_witness :
    (∀ ext ∈ SKIP_EXTENSIONS,
      strEndsWith (strToLower
        (⟨"tool-1.0-linux-amd64.tar.gz", "u3"⟩ : Asset).name) ext = false)
    ∧ ∀ kw ∈ SKIP_KEYWORDS,
        strContains (strToLower
          (⟨"tool-1.0-linux-amd64.tar.gz", "u3"⟩ : Asset).name) kw = false :=
  select_best_not_denylisted
    [⟨"tool-1.0-linux-amd64.tar.gz.sha256", "u1"⟩,
     ⟨"tool-1.0-source-code.tar.gz", "u2"⟩,
     ⟨"tool-1.0-linux-amd64.tar.gz", "u3"⟩]
    "linux" "x86_64" ⟨"tool-1.0-linux-amd64.tar.gz", "u3"⟩ (by rfl)

/-! ## C4: format bonus and format preferences -/

lemma zip_isExtractable {nl : String} (h : strEndsWith nl ".zip" = true) :
    isExtractableExt nl = true :=
  List.any_eq_true.mpr ⟨".zip", by simp, h⟩

lemma targz_isExtractable {nl : String} (h : strEndsWith nl ".tar.gz" = true) :
    isExtractableExt nl = true :=
  List.any_eq_true.mpr ⟨".tar.gz", by simp, h⟩

lemma tgz_isExtractable {nl : String} (h : strEndsWith nl ".tgz" = true) :
    isExtractableExt nl = true :=
  List.any_eq_true.mpr ⟨".tgz", by simp, h⟩

lemma not_extractable_not_zip {nl : String} (h : isExtractableExt nl = false) :
    strEndsWith nl ".zip" = false := by
  cases h' : strEndsWith nl ".zip"
  · rfl
  · rw [zip_isExtractable h'] at h; exact absurd h (by simp)

/-- A candidate's score is 15 plus its format bonus. -/
lemma scoreAsset_of_candidate {a : Asset} {platform arch : String}
    (h : isCandidate a platform arch = true) :
    scoreAsset a platform arch = 15 + formatBonus (strToLower a.name) platform := by
  simp only [isCandidate, Bool.and_eq_true, Bool.not_eq_true'] at h
  obtain ⟨⟨_, hpm⟩, ham⟩ := h
  simp [scoreAsset, hpm, ham]

/-- Between two candidates where the second listed scores strictly less, the
first is selected in either input order. -/
lemma selectBest_pair {a b : Asset} {platform arch : String}
    (hca : isCandidate a platform arch = true)
    (hcb : isCandidate b platform arch = true)
    (hlt : scoreAsset b platform arch < scoreAsset a platform arch) :
    selectBestAsset [a, b] platform arch = some a
      ∧ selectBestAsset [b, a] platform arch = some a := by
  constructor <;>
    simp [selectBestAsset, selectStep_eq, hca, hcb, le_of_lt hlt, not_le.mpr hlt]

/-- **C4**.  The format bonus of `select_best_asset` is: on a windows
target, +2 for `.zip` and otherwise +1 for any extractable suffix, else +0;
on a non-windows target, +2 for `.tar.gz`/`.tgz` and otherwise +1 for any
extractable suffix, else +0; a candidate's total score is 15 plus this
bonus.  Consequently, between two otherwise equal candidates, a windows
target selects `.zip` over `.tar.gz` in either input order, and a
non-windows target selects `.tar.gz`/`.tgz` over any other extractable
format in either input order. -/
theorem format_bonus_cases_and_preference :
    (∀ nl platform : String, platformAliasesContain platform "windows" = true →
      (strEndsWith nl ".zip" = true → formatBonus nl platform = 2)
        ∧ (strEndsWith nl ".zip" = false → isExtractableExt nl = true →
            formatBonus nl platform = 1)
        ∧ (isExtractableExt nl = false → formatBonus nl platform = 0)) ∧
    (∀ nl platform : String, platformAliasesContain platform "windows" = false →
      ((strEndsWith nl ".tar.gz" = true ∨ strEndsWith nl ".tgz" = true) →
          formatBonus nl platform = 2)
        ∧ (strEndsWith nl ".tar.gz" = false → strEndsWith nl ".tgz" = false →
            isExtractableExt nl = true → formatBonus nl platform = 1)
        ∧ (strEndsWith nl ".tar.gz" = false → strEndsWith nl ".tgz" = false →
            isExtractableExt nl = false → formatBonus nl platform = 0)) ∧
    (∀ (a : Asset) (platform arch : String),
      isCandidate a platform arch = true →
      scoreAsset a platform arch
        = 15 + formatBonus (strToLower a.name) platform) ∧
    (∀ (a b : Asset) (platform arch : String),
      platformAliasesContain platform "windows" = true →
      isCandidate a platform arch = true → isCandidate b platform arch = true →
      strEndsWith (strToLower a.name) ".zip" = true →
      strEndsWith (strToLower b.name) ".tar.gz" = true →
      selectBestAsset [a, b] platform arch = some a
        ∧ selectBestAsset [b, a] platform arch = some a) ∧
    (∀ (a b : Asset) (platform arch : String),
      platformAliasesContain platform "windows" = false →
      isCandidate a platform arch = true → isCandidate b platform arch = true →
      (strEndsWith (strToLower a.name) ".tar.gz" = true
        ∨ strEndsWith (strToLower a.name) ".tgz" = true) →
      isExtractableExt (strToLower b.name) = true →
      strEndsWith (strToLower b.name) ".tar.gz" = false →
      strEndsWith (strToLower b.name) ".tgz" = false →
      selectBestAsset [a, b] platform arch = some a
        ∧ selectBestAsset [b, a] platform arch = some a) := by
  refine ⟨?_, ?_, ?_, ?_, ?_⟩
  · intro nl platform hw
    refine ⟨fun hz => by simp [formatBonus, hw, hz],
      fun hz hx => by simp [formatBonus, hw, hz, hx],
      fun hx => by simp [formatBonus, hw, not_extractable_not_zip hx, hx]⟩
  · intro nl platform hw
    refine ⟨?_, fun h1 h2 hx => by simp [formatBonus, hw, h1, h2, hx],
      fun h1 h2 hx => by simp [formatBonus, hw, h1, h2, hx]⟩
    rintro (h | h) <;> simp [formatBonus, hw, h]
  · exact fun a platform arch h => scoreAsset_of_candidate h
  · intro a b platform arch hw hca hcb haz hbt
    have hbz : strEndsWith (strToLower b.name) ".zip" = false :=
      strEndsWith_excl hbt (by decide) (by decide)
    have hsa : scoreAsset a platform arch = 17 := by
      rw [scoreAsset_of_candidate hca]; simp [formatBonus, hw, haz]
    have hsb : scoreAsset b platform arch = 16 := by
      rw [scoreAsset_of_candidate hcb]
      simp [formatBonus, hw, hbz, targz_isExtractable hbt]
    exact selectBest_pair hca hcb (by rw [hsa, hsb]; norm_num)
  · intro a b platform arch hw hca hcb hat hbx hb1 hb2
    have hsa : scoreAsset a platform arch = 17 := by
      rw [scoreAsset_of_candidate hca]
      rcases hat with h | h <;> simp [formatBonus, hw, h]
    have hsb : scoreAsset b platform arch = 16 := by
      rw [scoreAsset_of_candidate hcb]; simp [formatBonus, hw, hb1, hb2, hbx]
    exact selectBest_pair hca hcb (by rw [hsa, hsb]; norm_num)

/-- Witness for C4: a windows target picks the `.zip` asset over the
`.tar.gz` asset in both input orders; a linux target picks the `.tar.gz`
asset over the `.zip` asset in both input orders. -/
theorem format_bonus_cases_and_preference_witness :
    (selectBestAsset
        [⟨"tool-x86_64-pc-windows-msvc.zip", "u1"⟩,
         ⟨"tool-x86_64-pc-windows-msvc.tar.gz", "u2"⟩] "windows" "x86_64"
      = some ⟨"tool-x86_64-pc-windows-msvc.zip", "u1"⟩
      ∧ selectBestAsset
          [⟨"tool-x86_64-pc-windows-msvc.tar.gz", "u2"⟩,
           ⟨"tool-x86_64-pc-windows-msvc.zip", "u1"⟩] "windows" "x86_64"
        = some ⟨"tool-x86_64-pc-windows-msvc.zip", "u1"⟩)
    ∧ (selectBestAsset
        [⟨"tool-x86_64-linux.tar.gz", "u1"⟩,
         ⟨"tool-x86_64-linux.zip", "u2"⟩] "linux" "x86_64"
      = some ⟨"tool-x86_64-linux.tar.gz", "u1"⟩
      ∧ selectBestAsset
          [⟨"tool-x86_64-linux.zip", "u2"⟩,
           ⟨"tool-x86_64-linux.tar.gz", "u1"⟩] "linux" "x86_64"
        = some ⟨"tool-x86_64-linux.tar.gz", "u1"⟩) :=
  ⟨format_bonus_cases_and_preference.2.2.2.1
      ⟨"tool-x86_64-pc-windows-msvc.zip", "u1"⟩
      ⟨"tool-x86_64-pc-windows-msvc.tar.gz", "u2"⟩ "windows" "x86_64"
      (by rfl) (by rfl) (by rfl) (by rfl) (by rfl),
   format_bonus_cases_and_preference.2.2.2.2
      ⟨"tool-x86_64-linux.tar.gz", "u1"⟩
      ⟨"tool-x86_64-linux.zip", "u2"⟩ "linux" "x86_64"
      (by rfl) (by rfl) (by rfl) (Or.inl (by rfl)) (by rfl) (by rfl) (by rfl)⟩

/-! ## C6: alias matching -/

/-- If the group lookup finds `g` and the filename contains one of the
aliases of `g`, the alias match succeeds. -/
lemma matchesAliasGroup_found {nl v : String}
    {groups : List (String × List String)} {g : String × List String}
    (hfind : groups.find? (aliasGroupFor (strToLower v)) = some g)
    {y : String} (hy : y ∈ g.2) (hc : strContains nl y = true) :
    matchesAliasGroup nl v groups = true := by
  simp only [matchesAliasGroup]
  rw [hfind]
  exact List.any_eq_true.mpr ⟨y, hy, hc⟩

/-- If the value belongs to no group, the alias match is the direct
substring test. -/
lemma matchesAliasGroup_fallback (nl v : String)
    (groups : List (String × List String))
    (h : ∀ g ∈ groups, strToLower v ∉ (g.1 :: g.2)) :
    matchesAliasGroup nl v groups = strContains nl (strToLower v) := by
  have hfind : groups.find? (aliasGroupFor (strToLower v)) = none := by
    rw [List.find?_eq_none]
    intro g hg
    have hne := h g hg
    simp only [List.mem_cons, not_or] at hne
    simp only [aliasGroupFor, Bool.or_eq_true, beq_iff_eq, List.any_eq_true,
      not_or, not_exists, not_and]
    refine ⟨fun he => hne.1 he.symm, fun a ha he => hne.2 (he ▸ ha)⟩
  simp only [matchesAliasGroup]
  rw [hfind]

/-- **C6**.  Alias matching is case-insensitive in both the filename and the
target value; it is bidirectional across each group of the platform and
architecture tables (a target equal to any identifier of a group matches a
filename containing any identifier of that group); and a target belonging
to no group falls back to the direct substring test of its lowercased value
against the filename. -/
theorem alias_matching_properties :
    (∀ (name₁ name₂ v₁ v₂ : String) (groups : List (String × List String)),
      strToLower name₁ = strToLower name₂ → strToLower v₁ = strToLower v₂ →
      matchesAliasGroup (strToLower name₁) v₁ groups
        = matchesAliasGroup (strToLower name₂) v₂ groups) ∧
    (∀ x y name v : String, inSameAliasGroup x y PLATFORM_ALIASES →
      strToLower v = x → strContains name y = true →
      matchesAliasGroup name v PLATFORM_ALIASES = true) ∧
    (∀ x y name v : String, inSameAliasGroup x y ARCH_ALIASES →
      strToLower v = x → strContains name y = true →
      matchesAliasGroup name v ARCH_ALIASES = true) ∧
    (∀ (name v : String) (groups : List (String × List String)),
      (∀ g ∈ groups, strToLower v ∉ (g.1 :: g.2)) →
      matchesAliasGroup name v groups = strContains name (strToLower v)) := by
  refine ⟨?_, ?_, ?_, matchesAliasGroup_fallback⟩
  · intro name₁ name₂ v₁ v₂ groups h1 h2
    rw [h1]
    simp only [matchesAliasGroup, h2]
  · rintro x y name v ⟨g, hg, hx, hy⟩ hv hc
    fin_cases hg <;> fin_cases hx <;> fin_cases hy <;>
      exact matchesAliasGroup_found (by rw [hv]; rfl) (by decide) hc
  · rintro x y name v ⟨g, hg, hx, hy⟩ hv hc
    fin_cases hg <;> fin_cases hx <;> fin_cases hy <;>
      exact matchesAliasGroup_found (by rw [hv]; rfl) (by decide) hc

/-- Witness for C6: target `DARWIN` matches a filename containing `osx`;
target `x86_64` matches a filename containing `amd64`; target `amd64`
matches a filename containing `x86_64`; an unknown `riscv64` target reduces
to the direct substring test. -/
theorem alias_matching_properties_witness :
    matchesAliasGroup "tool-osx-arm64.tar.gz" "DARWIN" PLATFORM_ALIASES = true
    ∧ matchesAliasGroup "tool-linux-amd64.tar.gz" "x86_64" ARCH_ALIASES = true
    ∧ matchesAliasGroup "tool-linux-x86_64.tar.gz" "amd64" ARCH_ALIASES = true
    ∧ matchesAliasGroup "tool-linux-riscv64.tar.gz" "riscv64" PLATFORM_ALIASES
        = strContains "tool-linux-riscv64.tar.gz" (strToLower "riscv64") :=
  ⟨alias_matching_properties.2.1 "darwin" "osx" "tool-osx-arm64.tar.gz" "DARWIN"
      ⟨("macos", ["macos", "darwin", "osx", "apple"]), by decide, by decide,
        by decide⟩ (by decide) (by decide),
   alias_matching_properties.2.2.1 "x86_64" "amd64" "tool-linux-amd64.tar.gz"
      "x86_64" ⟨("x86_64", ["x86_64", "x86-64", "amd64", "x64"]), by decide,
        by decide, by decide⟩ (by decide) (by decide),
   alias_matching_properties.2.2.1 "amd64" "x86_64" "tool-linux-x86_64.tar.gz"
      "amd64" ⟨("x86_64", ["x86_64", "x86-64", "amd64", "x64"]), by decide,
        by decide, by decide⟩ (by decide) (by decide),
   alias_matching_properties.2.2.2 "tool-linux-riscv64.tar.gz" "riscv64"
      PLATFORM_ALIASES (by decide)⟩

/-! ## C1: zip extraction cannot escape the output directory -/

/-- **C1**.  `extract_zip` succeeds as a whole (entries with a failing
enclosed name are never fatal), every filesystem write it performs targets a
path extending the output directory by clean components (no `..`, no empty
component — so the write cannot land outside the output directory), and an
entry whose enclosed name fails produces no write at all: it is skipped
silently while the remaining entries are still processed. -/
theorem extract_zip_never_escapes :
    ∀ (entries : List ZipEntry) (outputDir : FsPath),
      (extractZip entries outputDir).2 = Except.ok ()
      ∧ (∀ ev ∈ (extractZip entries outputDir).1,
          outputDir <+: ev.path
            ∧ ∀ c ∈ ev.path.drop outputDir.length, c ≠ ".." ∧ c ≠ "")
      ∧ ∀ e ∈ entries, enclosedName e = none →
          zipEntryEvents outputDir e = [] := by
  intro entries outputDir
  refine ⟨rfl, ?_, ?_⟩
  · intro ev hev
    simp only [extractZip] at hev
    rw [List.mem_flatten] at hev
    obtain ⟨evs, hevs, hev⟩ := hev
    rw [List.mem_map] at hevs
    obtain ⟨e, _, rfl⟩ := hevs
    cases hname : enclosedName e with
    | none => rw [zipEntryEvents, hname] at hev; exact absurd hev (by simp)
    | some rel =>
      have hrel : rel = e.components ∧
          e.components.isEmpty = false ∧
          e.components.any (fun c => c == ".." || c == "") = false := by
        simp only [enclosedName] at hname
        split at hname
        · exact absurd hname (by simp)
        · rename_i hcond
          simp only [Bool.or_eq_true, not_or] at hcond
          refine ⟨(Option.some.injEq _ _).mp hname |>.symm, ?_, ?_⟩
          · cases h : e.components.isEmpty
            · rfl
            · exact absurd h hcond.1.2
          · cases h : e.components.any (fun c => c == ".." || c == "")
            · rfl
            · exact absurd h hcond.2
      obtain ⟨rfl, hne, hclean⟩ := hrel
      have hnonempty : e.components ≠ [] := by
        cases h : e.components
        · rw [h] at hne; exact absurd hne (by simp)
        · simp
      have hcleanMem : ∀ c ∈ e.components, c ≠ ".." ∧ c ≠ "" := by
        intro c hc
        rw [List.any_eq_false] at hclean
        have := hclean c hc
        simp only [Bool.or_eq_true, beq_iff_eq, not_or] at this
        exact this
      rw [zipEntryEvents, hname] at hev
      dsimp only at hev
      have hfileCase :
          ev = FsEvent.createDirAll ((outputDir ++ e.components).dropLast)
            ∨ ev = FsEvent.createFile (outputDir ++ e.components)
            ∨ ev = FsEvent.createDirAll (outputDir ++ e.components) := by
        by_cases hdir : e.isDir
        · rw [if_pos hdir] at hev
          simp only [List.mem_singleton] at hev
          exact Or.inr (Or.inr hev)
        · rw [if_neg hdir] at hev
          rcases hfull : outputDir ++ e.components with _ | ⟨x, xs⟩
          · exact absurd hfull
              (List.append_ne_nil_of_right_ne_nil outputDir hnonempty)
          · rw [hfull] at hev
            simp only [List.mem_cons, List.mem_singleton, List.not_mem_nil,
              or_false] at hev
            rcases hev with h | h
            · exact Or.inl h
            · exact Or.inr (Or.inl h)
      have hclean' : ∀ c ∈ e.components.dropLast, c ≠ ".." ∧ c ≠ "" :=
        fun c hc => hcleanMem c ((List.dropLast_sublist e.components).subset hc)
      rcases hfileCase with rfl | rfl | rfl
      · rw [FsEvent.path, List.dropLast_append_of_ne_nil _ hnonempty]
        exact ⟨List.prefix_append _ _, by rw [List.drop_left]; exact hclean'⟩
      · exact ⟨List.prefix_append _ _, by
          rw [FsEvent.path, List.drop_left]; exact hcleanMem⟩
      · exact ⟨List.prefix_append _ _, by
          rw [FsEvent.path, List.drop_left]; exact hcleanMem⟩
  · intro e _ hnone
    rw [zipEntryEvents, hnone]

/-- Witness for C1: an archive with a `..`-traversal entry, an
absolute-path entry and a benign entry.  Extraction succeeds, the benign
file write stays inside the output directory, and both malicious entries
are skipped without any write. -/
theorem extract_zip_never_escapes_witness :
    (extractZip
        [⟨false, ["..", "..", "etc", "passwd"], false⟩,
         ⟨true, ["etc", "passwd"], false⟩,
         ⟨false, ["bin", "tool"], false⟩] ["out"]).2 = Except.ok ()
    ∧ (["out"] <+: (FsEvent.createFile ["out", "bin", "tool"]).path
        ∧ ∀ c ∈ (FsEvent.createFile ["out", "bin", "tool"]).path.drop
            (["out"] : FsPath).length, c ≠ ".." ∧ c ≠ "")
    ∧ zipEntryEvents ["out"] ⟨false, ["..", "..", "etc", "passwd"], false⟩ = []
    ∧ zipEntryEvents ["out"] ⟨true, ["etc", "passwd"], false⟩ = [] :=
  ⟨(extract_zip_never_escapes
      [⟨false, ["..", "..", "etc", "passwd"], false⟩,
       ⟨true, ["etc", "passwd"], false⟩,
       ⟨false, ["bin", "tool"], false⟩] ["out"]).1,
   (extract_zip_never_escapes
      [⟨false, ["..", "..", "etc", "passwd"], false⟩,
       ⟨true, ["etc", "passwd"], false⟩,
       ⟨false, ["bin", "tool"], false⟩] ["out"]).2.1
      (FsEvent.createFile ["out", "bin", "tool"]) (by decide),
   (extract_zip_never_escapes
      [⟨false, ["..", "..", "etc", "passwd"], false⟩,
       ⟨true, ["etc", "passwd"], false⟩,
       ⟨false, ["bin", "tool"], false⟩] ["out"]).2.2
      ⟨false, ["..", "..", "etc", "passwd"], false⟩ (by decide) (by decide),
   (extract_zip_never_escapes
      [⟨false, ["..", "..", "etc", "passwd"], false⟩,
       ⟨true, ["etc", "passwd"], false⟩,
       ⟨false, ["bin", "tool"], false⟩] ["out"]).2.2
      ⟨true, ["etc", "passwd"], false⟩ (by decide) (by decide)⟩

/-! ## C8: the URL grammar of `parse_github_url` -/

lemma joinSlash_cons₂ (s r : List Char) (rest : List (List Char)) :
    joinSlash (s :: r :: rest) = s ++ '/' :: joinSlash (r :: rest) := rfl

lemma splitOnSlashAux_cons (c : Char) (rest : List Char) :
    splitOnSlashAux (c :: rest) =
      if c = '/' then ([], (splitOnSlashAux rest).1 :: (splitOnSlashAux rest).2)
      else (c :: (splitOnSlashAux rest).1, (splitOnSlashAux rest).2) := by
  rcases h : splitOnSlashAux rest with ⟨s, ss⟩
  simp [splitOnSlashAux, h]

/-- Splitting then joining restores the original character list. -/
lemma joinSlash_splitOnSlash (l : List Char) :
    joinSlash (splitOnSlash l) = l := by
  induction l with
  | nil => rfl
  | cons c rest ih =>
    rw [splitOnSlash, splitOnSlashAux_cons]
    by_cases hc : c = '/'
    · rw [if_pos hc]
      dsimp only
      rw [joinSlash_cons₂]
      rw [splitOnSlash] at ih
      rw [ih, hc]
      rfl
    · rw [if_neg hc]
      dsimp only
      rw [splitOnSlash] at ih
      rcases hss : (splitOnSlashAux rest).2 with _ | ⟨y, ys⟩
      · rw [hss] at ih
        simp only [joinSlash] at ih ⊢
        rw [ih]
      · rw [hss] at ih
        rw [joinSlash_cons₂] at ih ⊢
        rw [List.cons_append, ih]

/-- No piece produced by `splitOnSlash` contains a slash. -/
lemma splitOnSlash_no_slash (l : List Char) :
    ∀ s ∈ splitOnSlash l, '/' ∉ s := by
  induction l with
  | nil =>
    intro s hs
    simp only [splitOnSlash, splitOnSlashAux] at hs
    rcases List.mem_cons.mp hs with rfl | h
    · exact List.not_mem_nil _
    · exact absurd h (List.not_mem_nil _)
  | cons c rest ih =>
    intro s hs
    rw [splitOnSlash, splitOnSlashAux_cons] at hs
    by_cases hc : c = '/'
    · rw [if_pos hc] at hs
      dsimp only at hs
      rcases List.mem_cons.mp hs with rfl | h
      · exact List.not_mem_nil _
      · exact ih s (by rw [splitOnSlash]; exact h)
    · rw [if_neg hc] at hs
      dsimp only at hs
      rcases List.mem_cons.mp hs with rfl | h
      · intro hmem
        rcases List.mem_cons.mp hmem with h' | h'
        · exact hc h'.symm
        · exact ih _ (by rw [splitOnSlash]; exact List.mem_cons_self ..) h'
      · exact ih s (by rw [splitOnSlash]; exact List.mem_cons_of_mem _ h)

/-- On a slash-free list the split worker consumes everything as one piece. -/
lemma splitOnSlashAux_no_slash {s : List Char} (h : '/' ∉ s) :
    splitOnSlashAux s = (s, []) := by
  induction s with
  | nil => rfl
  | cons c rest ih =>
    have hc : ¬(c = '/') := fun he => h (he ▸ List.mem_cons_self ..)
    rw [splitOnSlashAux_cons, if_neg hc,
      ih (fun hm => h (List.mem_cons_of_mem _ hm))]

/-- The split worker splits off a slash-free piece before a slash. -/
lemma splitOnSlashAux_append {s : List Char} (t : List Char) (h : '/' ∉ s) :
    splitOnSlashAux (s ++ '/' :: t) = (s, splitOnSlash t) := by
  induction s with
  | nil =>
    rw [List.nil_append, splitOnSlashAux_cons, if_pos rfl, splitOnSlash]
  | cons c rest ih =>
    have hc : ¬(c = '/') := fun he => h (he ▸ List.mem_cons_self ..)
    rw [List.cons_append, splitOnSlashAux_cons, if_neg hc,
      ih (fun hm => h (List.mem_cons_of_mem _ hm))]

/-- Joining slash-free segments then splitting restores the segments. -/
lemma splitOnSlash_joinSlash :
    ∀ segs : List (List Char), segs ≠ [] → (∀ s ∈ segs, '/' ∉ s) →
      splitOnSlash (joinSlash segs) = segs
  | [], h, _ => absurd rfl h
  | [s], _, hfree => by
    have : joinSlash [s] = s := rfl
    rw [this, splitOnSlash,
      splitOnSlashAux_no_slash (hfree s (List.mem_cons_self ..))]
  | s :: r :: rest, _, hfree => by
    rw [joinSlash_cons₂, splitOnSlash,
      splitOnSlashAux_append _ (hfree s (List.mem_cons_self ..))]
    dsimp only
    rw [splitOnSlash_joinSlash (r :: rest) (by simp)
      (fun x hx => hfree x (List.mem_cons_of_mem _ hx))]

/-- Every character list is its slash-trimmed form plus trailing slashes. -/
lemma trimEndSlashes_spec (l : List Char) :
    ∃ k, l = trimEndSlashes l ++ List.replicate k '/' := by
  refine ⟨(l.reverse.takeWhile (fun c => c == '/')).length, ?_⟩
  have htake : l.reverse.takeWhile (fun c => c == '/')
      = List.replicate (l.reverse.takeWhile (fun c => c == '/')).length '/' :=
    List.eq_replicate_of_mem (fun b hb => by
      have := List.mem_takeWhile_imp hb
      exact (beq_iff_eq ..).mp this)
  calc l = l.reverse.reverse := (List.reverse_reverse l).symm
    _ = (l.reverse.takeWhile (fun c => c == '/')
          ++ l.reverse.dropWhile (fun c => c == '/')).reverse := by
        rw [List.takeWhile_append_dropWhile]
    _ = trimEndSlashes l ++ (l.reverse.takeWhile (fun c => c == '/')).reverse := by
        rw [List.reverse_append]; rfl
    _ = _ := by
        conv_lhs => rw [htake, List.reverse_replicate]

/-- The slash-trimmed form does not end with a slash. -/
lemma trimEndSlashes_getLast (l : List Char) :
    (trimEndSlashes l).getLast? ≠ some '/' := by
  rw [trimEndSlashes, List.getLast?_reverse]
  generalize l.reverse = m
  induction m with
  | nil => simp
  | cons c rest ih =>
    rw [List.dropWhile_cons]
    by_cases hc : (c == '/') = true
    · rw [if_pos hc]; exact ih
    · rw [if_neg hc]
      intro he
      simp only [List.head?_cons, Option.some.injEq] at he
      exact hc (by rw [he]; rfl)

/-- Trimming removes exactly the trailing slashes when the base does not end
with one. -/
lemma trimEndSlashes_append (r : List Char) (k : ℕ)
    (h : r.getLast? ≠ some '/') :
    trimEndSlashes (r ++ List.replicate k '/') = r := by
  rw [trimEndSlashes, List.reverse_append, List.reverse_replicate,
    List.dropWhile_append, List.dropWhile_replicate]
  simp only [beq_self_eq_true, if_true, List.isEmpty_nil]
  rcases hr : r.reverse with _ | ⟨c, cs⟩
  · have : r = [] := by
      have := congrArg List.reverse hr
      rwa [List.reverse_reverse] at this
    simp [this]
  · have hc : c ≠ '/' := by
      intro he
      apply h
      rw [← List.head?_reverse, hr, he]
      rfl
    rw [List.dropWhile_cons, if_neg (by simp [hc]), ← hr,
      List.reverse_reverse]

lemma strStripStart_eq_some {s p r : String} :
    strStripStart s p = some r ↔ s.data = p.data ++ r.data := by
  constructor
  · intro he
    rw [strStripStart] at he
    split at he
    · rename_i hcond
      obtain ⟨tl, htl⟩ := List.isPrefixOf_iff_prefix.mp hcond
      simp only [Option.some.injEq] at he
      rw [← he, ← htl, List.drop_left]
    · exact absurd he (by simp)
  · intro he
    have hpre : p.data.isPrefixOf s.data = true :=
      List.isPrefixOf_iff_prefix.mpr ⟨r.data, he.symm⟩
    rw [strStripStart, if_pos hpre]
    have : s.data.drop p.data.length = r.data := by
      rw [he, List.drop_left]
    rw [this]

lemma strStripStart_eq_none {s p : String} :
    strStripStart s p = none ↔ ¬ p.data <+: s.data := by
  rw [strStripStart]
  split
  · rename_i hcond
    constructor
    · intro he
      exact absurd he (by simp)
    · intro hnp
      exact absurd (List.isPrefixOf_iff_prefix.mp hcond) hnp
  · rename_i hcond
    refine ⟨fun _ hp => hcond (List.isPrefixOf_iff_prefix.mpr hp), fun _ => rfl⟩

/-- The `https` host prefix never matches a URL built on the `http` host
prefix (the characters at index 4 differ). -/
lemma https_not_prefix_http (rest : List Char) :
    ¬("https://github.com/".data <+: "http://github.com/".data ++ rest) := by
  intro h
  have h4 : (4 : ℕ) < "https://github.com/".data.length := by decide
  have hch := h.getElem h4
  rw [List.getElem_append_left
    (by decide : (4 : ℕ) < "http://github.com/".data.length)] at hch
  have hl : "https://github.com/".data[4] = 's' := rfl
  have hr : "http://github.com/".data[4] = ':' := rfl
  rw [hl, hr] at hch
  exact absurd hch (by decide)

/-- Inversion of the segment-shape match of `parse_github_url`. -/
lemma parseSegments_eq_some_iff {segs : List (List Char)} {o r : String}
    {t : Option String} :
    parseSegments segs = some (o, r, t) ↔
      ((segs = [o.data, r.data]
        ∨ segs = [o.data, r.data, "releases".data]
        ∨ segs = [o.data, r.data, "releases".data, "latest".data]) ∧ t = none)
      ∨ (∃ tag : String, t = some tag
          ∧ segs = [o.data, r.data, "releases".data, "tag".data, tag.data]) := by
  constructor
  · intro h
    rcases segs with _ | ⟨s1, _ | ⟨s2, _ | ⟨s3, _ | ⟨s4, _ | ⟨s5, _ | ⟨s6, rest⟩⟩⟩⟩⟩⟩
    · simp [parseSegments] at h
    · simp [parseSegments] at h
    · simp only [parseSegments, Option.some.injEq, Prod.mk.injEq] at h
      obtain ⟨h1, h2, h3⟩ := h
      subst h1; subst h2; subst h3
      exact Or.inl ⟨Or.inl rfl, rfl⟩
    · simp only [parseSegments] at h
      split at h
      · rename_i hg
        simp only [Option.some.injEq, Prod.mk.injEq] at h
        obtain ⟨h1, h2, h3⟩ := h
        subst h1; subst h2; subst h3; subst hg
        exact Or.inl ⟨Or.inr (Or.inl rfl), rfl⟩
      · exact absurd h (by simp)
    · simp only [parseSegments] at h
      split at h
      · rename_i hg
        obtain ⟨hg1, hg2⟩ := hg
        simp only [Option.some.injEq, Prod.mk.injEq] at h
        obtain ⟨h1, h2, h3⟩ := h
        subst h1; subst h2; subst h3; subst hg1; subst hg2
        exact Or.inl ⟨Or.inr (Or.inr rfl), rfl⟩
      · exact absurd h (by simp)
    · simp only [parseSegments] at h
      split at h
      · rename_i hg
        obtain ⟨hg1, hg2⟩ := hg
        simp only [Option.some.injEq, Prod.mk.injEq] at h
        obtain ⟨h1, h2, h3⟩ := h
        subst h1; subst h2; subst hg1; subst hg2
        exact Or.inr ⟨⟨s5⟩, h3.symm, rfl⟩
      · exact absurd h (by simp)
    · simp [parseSegments] at h
  · intro h
    rcases h with ⟨hsh, rfl⟩ | ⟨tag, rfl, rfl⟩
    · rcases hsh with rfl | rfl | rfl <;> rfl
    · rfl

/-- Joining at least two segments whose last one is empty yields a list
ending in a slash. -/
lemma joinSlash_getLast_slash :
    ∀ segs : List (List Char), 2 ≤ segs.length → segs.getLast? = some [] →
      (joinSlash segs).getLast? = some '/'
  | [], h, _ => absurd h (by simp)
  | [_], h, _ => absurd h (by simp)
  | [a, b], _, hlast => by
    have hb : b = [] := by
      have : ([a, b] : List (List Char)).getLast? = some b := rfl
      rw [this] at hlast
      exact (Option.some.injEq .. ▸ hlast)
    subst hb
    have : joinSlash [a, []] = a ++ ['/'] := rfl
    rw [this, List.getLast?_concat]
  | a :: b :: c :: rest, _, hlast => by
    have hl : (b :: c :: rest).getLast? = some [] := hlast
    have ih := joinSlash_getLast_slash (b :: c :: rest) (by simp) hl
    rw [joinSlash_cons₂, List.getLast?_append_of_ne_nil _ (by simp)]
    have hJ : joinSlash (b :: c :: rest) ≠ [] := by
      intro h0
      rw [h0] at ih
      exact absurd ih (by simp)
    rw [show ('/' :: joinSlash (b :: c :: rest))
        = ['/'] ++ joinSlash (b :: c :: rest) from rfl,
      List.getLast?_append_of_ne_nil _ hJ]
    exact ih

/-- Joining slash-free segments whose last one is nonempty yields a list
not ending in a slash. -/
lemma joinSlash_getLast_ne_slash :
    ∀ segs : List (List Char), segs ≠ [] → (∀ s ∈ segs, '/' ∉ s) →
      segs.getLast? ≠ some [] → (joinSlash segs).getLast? ≠ some '/'
  | [], h, _, _ => absurd rfl h
  | [s], _, hfree, hlast => by
    have hs : s ≠ [] := by
      intro h0
      exact hlast (by rw [h0]; rfl)
    have : joinSlash [s] = s := rfl
    rw [this]
    intro hsl
    obtain ⟨hne, hget⟩ := List.mem_getLast?_eq_getLast (by
      rw [hsl]; exact rfl : '/' ∈ s.getLast?)
    exact hfree s (List.mem_cons_self ..) (hget ▸ List.getLast_mem hne)
  | s :: r :: rest, _, hfree, hlast => by
    have htail : (r :: rest).getLast? ≠ some [] := hlast
    have ih := joinSlash_getLast_ne_slash (r :: rest) (by simp)
      (fun x hx => hfree x (List.mem_cons_of_mem _ hx)) htail
    rw [joinSlash_cons₂, List.getLast?_append_of_ne_nil _ (by simp)]
    have hJ : joinSlash (r :: rest) ≠ [] := by
      intro h0
      rcases rest with _ | ⟨c, rest'⟩
      · have : joinSlash [r] = r := rfl
        rw [this] at h0
        exact htail (by rw [h0]; rfl)
      · rw [joinSlash_cons₂] at h0
        exact absurd h0 (List.append_ne_nil_of_right_ne_nil _ (by simp))
    rw [show ('/' :: joinSlash (r :: rest))
        = ['/'] ++ joinSlash (r :: rest) from rfl,
      List.getLast?_append_of_ne_nil _ hJ]
    exact ih

/-- From a successful segment parse of a stripped path to the grammar's
path-side conditions. -/
lemma segs_of_parse {path o r : String} {t : Option String}
    (h : parseSegments (splitOnSlash (trimEndSlashes path.data))
      = some (o, r, t)) :
    ∃ segs ∈ releaseSegments o r t, ∃ k : ℕ,
      path.data = joinSlash segs ++ List.replicate k '/'
      ∧ (∀ s ∈ segs, '/' ∉ s)
      ∧ segs.getLast? ≠ some [] := by
  obtain ⟨k, hk⟩ := trimEndSlashes_spec path.data
  have hjoin := joinSlash_splitOnSlash (trimEndSlashes path.data)
  have hfree := splitOnSlash_no_slash (trimEndSlashes path.data)
  have hend := trimEndSlashes_getLast path.data
  have hlast : (splitOnSlash (trimEndSlashes path.data)).getLast? ≠ some [] := by
    intro h0
    have hlen : 2 ≤ (splitOnSlash (trimEndSlashes path.data)).length := by
      rcases parseSegments_eq_some_iff.mp h with ⟨hsh, _⟩ | ⟨tag, _, hsh⟩
      · rcases hsh with hsh | hsh | hsh <;> rw [hsh] <;> simp
      · rw [hsh]; simp
    have := joinSlash_getLast_slash _ hlen h0
    rw [hjoin] at this
    exact hend this
  refine ⟨splitOnSlash (trimEndSlashes path.data), ?_, k, ?_, hfree, hlast⟩
  · rcases parseSegments_eq_some_iff.mp h with ⟨hsh, rfl⟩ | ⟨tag, rfl, hsh⟩
    · rcases hsh with hsh | hsh | hsh <;> rw [hsh] <;> simp [releaseSegments]
    · rw [hsh]; simp [releaseSegments]
  · rw [hjoin, ← hk]

/-- From the grammar's path-side conditions to a successful segment parse. -/
lemma parse_of_segs {path o r : String} {t : Option String}
    {segs : List (List Char)} {k : ℕ}
    (hmem : segs ∈ releaseSegments o r t)
    (hpath : path.data = joinSlash segs ++ List.replicate k '/')
    (hfree : ∀ s ∈ segs, '/' ∉ s)
    (hlast : segs.getLast? ≠ some []) :
    parseSegments (splitOnSlash (trimEndSlashes path.data)) = some (o, r, t) := by
  have hne : segs ≠ [] := by
    rcases t with _ | tag <;>
      simp only [releaseSegments, List.mem_cons, List.not_mem_nil, or_false]
        at hmem
    · rcases hmem with rfl | rfl | rfl <;> simp
    · rcases hmem with rfl; simp
  have htrim : trimEndSlashes path.data = joinSlash segs := by
    rw [hpath]
    exact trimEndSlashes_append _ k
      (joinSlash_getLast_ne_slash segs hne hfree hlast)
  rw [htrim, splitOnSlash_joinSlash segs hne hfree]
  rcases t with _ | tag <;>
    simp only [releaseSegments, List.mem_cons, List.not_mem_nil, or_false]
      at hmem
  · rcases hmem with rfl | rfl | rfl <;> rfl
  · rcases hmem with rfl
    rfl

/-- `parse_github_url` with the `or_else` of the two scheme strips unfolded
into nested matches. -/
lemma parseGithubUrl_eq (url : String) :
    parseGithubUrl url
      = match strStripStart url "https://github.com/" with
        | some path => parseSegments (splitOnSlash (trimEndSlashes path.data))
        | none =>
          match strStripStart url "http://github.com/" with
          | some path => parseSegments (splitOnSlash (trimEndSlashes path.data))
          | none => none := by
  rw [parseGithubUrl]
  cases strStripStart url "https://github.com/" <;>
    cases strStripStart url "http://github.com/" <;> rfl

/-- **C8 (amended)**.  `parse_github_url` accepts exactly the URL grammar
over http/https `github.com` URLs after stripping ALL trailing slashes:
`/owner/repo`, `/owner/repo/releases`, `/owner/repo/releases/latest` parse
with no tag, `/owner/repo/releases/tag/<tag>` parses with that tag (path
segments slash-free, the final one nonempty), and any other shape is not a
release reference.  In particular the tag scenario parses and the `blob`
URL does not. -/
theorem parse_github_url_grammar :
    (∀ (url o r : String) (t : Option String),
      parseGithubUrl url = some (o, r, t) ↔ githubUrlGrammar url o r t)
    ∧ parseGithubUrl "https://github.com/o/r/releases/tag/v2.0"
        = some ("o", "r", some "v2.0")
    ∧ parseGithubUrl "https://github.com/o/r/blob/main/f" = none := by
  refine ⟨?_, by rfl, by rfl⟩
  intro url o r t
  constructor
  · intro h
    rw [parseGithubUrl_eq] at h
    cases hs1 : strStripStart url "https://github.com/" with
    | some path =>
      rw [hs1] at h
      dsimp only at h
      have hurl := strStripStart_eq_some.mp hs1
      obtain ⟨segs, hmem, k, hpath, hfree, hlast⟩ := segs_of_parse h
      refine ⟨"https://", by simp, segs, hmem, k, ?_, hfree, hlast⟩
      rw [hurl, hpath,
        show "https://github.com/".data
          = "https://".data ++ "github.com/".data from rfl]
      simp [List.append_assoc]
    | none =>
      rw [hs1] at h
      dsimp only at h
      cases hs2 : strStripStart url "http://github.com/" with
      | some path =>
        rw [hs2] at h
        dsimp only at h
        have hurl := strStripStart_eq_some.mp hs2
        obtain ⟨segs, hmem, k, hpath, hfree, hlast⟩ := segs_of_parse h
        refine ⟨"http://", by simp, segs, hmem, k, ?_, hfree, hlast⟩
        rw [hurl, hpath,
          show "http://github.com/".data
            = "http://".data ++ "github.com/".data from rfl]
        simp [List.append_assoc]
      | none =>
        rw [hs2] at h
        exact absurd h (by simp)
  · rintro ⟨scheme, hscheme, segs, hmem, k, hurl, hfree, hlast⟩
    have hps :=
      @parse_of_segs ⟨joinSlash segs ++ List.replicate k '/'⟩ o r t segs k
        hmem rfl hfree hlast
    rcases List.mem_cons.mp hscheme with rfl | hs
    · have hstrip : strStripStart url "https://github.com/"
          = some ⟨joinSlash segs ++ List.replicate k '/'⟩ := by
        apply strStripStart_eq_some.mpr
        rw [hurl,
          show "https://github.com/".data
            = "https://".data ++ "github.com/".data from rfl]
        simp [List.append_assoc]
      rw [parseGithubUrl_eq, hstrip]
      exact hps
    · rcases List.mem_cons.mp hs with rfl | hs2
      · have hform : url.data
            = "http://github.com/".data
                ++ (joinSlash segs ++ List.replicate k '/') := by
          rw [hurl,
            show "http://github.com/".data
              = "http://".data ++ "github.com/".data from rfl]
          simp [List.append_assoc]
        have hstrip1 : strStripStart url "https://github.com/" = none := by
          apply strStripStart_eq_none.mpr
          rw [hform]
          exact https_not_prefix_http _
        have hstrip2 : strStripStart url "http://github.com/"
            = some ⟨joinSlash segs ++ List.replicate k '/'⟩ :=
          strStripStart_eq_some.mpr hform
        rw [parseGithubUrl_eq, hstrip1, hstrip2]
        exact hps
      · exact absurd hs2 (by simp)

/-- Counterexample to C8 as stated: with only ONE trailing slash stripped
(the claim's reading), `https://github.com/o/r//` is not a release
reference, but the code strips ALL trailing slashes
(`trim_end_matches('/')`) and accepts it. -/
theorem parse_github_url_double_slash :
    parseGithubUrl "https://github.com/o/r//" = some ("o", "r", none)
      ∧ parseGithubUrlOneSlash "https://github.com/o/r//" = none :=
  ⟨by rfl, by rfl⟩
